import Mathlib

/-!
Shallow embedding of the anchor / box-coder / loss pipeline of
`core/anchors.py`, `core/ssd/loss.py` and `core/focal_loss.py` from the
torch_object repository.  Tensors are modelled as (nested) lists of real
scalars; integer class targets are modelled as `ℤ`.  Functions named after
source symbols are translated line by line from the Python source; the
helpers of `core/utils/box.py` are not part of the source tree and are
modelled from the specification (their doc comments say so explicitly).
-/

/-- A row of a `(·, 4)` tensor.  Depending on the convention in play the four
fields are `(center_x, center_y, width, height)` (fields `a b c d` read as
`cx cy w h`) or `(x1, y1, x2, y2)`. -/
@[ext]
structure Box4 where
  a : ℝ
  b : ℝ
  c : ℝ
  d : ℝ

/-- Line 65 of `core/anchors.py`: `self.variances = (0.1, 0.2)`, first component. -/
def variance_xy : ℝ := 0.1

/-- Line 65 of `core/anchors.py`: `self.variances = (0.1, 0.2)`, second component. -/
def variance_wh : ℝ := 0.2

/-- Lines 87-89 of `core/anchors.py` (`Anchors.encode_boxes_from_anchors`),
per anchor: `loc_xy = (boxes[:, :2] - anchors[:, :2]) / anchors[:, 2:] /
variances[0]`, `loc_wh = log(boxes[:, 2:] / anchors[:, 2:]) / variances[1]`.
`anchor` and `bx` are in `(cx, cy, w, h)` form. -/
noncomputable def encode_offsets (anchor bx : Box4) : Box4 where
  a := (bx.a - anchor.a) / anchor.c / variance_xy
  b := (bx.b - anchor.b) / anchor.d / variance_xy
  c := Real.log (bx.c / anchor.c) / variance_wh
  d := Real.log (bx.d / anchor.d) / variance_wh

/-- Lines 93-94 of `core/anchors.py` (`Anchors.decode_boxes_from_anchors`),
per anchor: `xy = loc_preds[:, :2] * variances[0] * anchors[:, 2:] +
anchors[:, :2]`, `wh = exp(loc_preds[:, 2:] * variances[1]) * anchors[:, 2:]`.
Result is in `(cx, cy, w, h)` form. -/
noncomputable def decode_offsets (anchor loc : Box4) : Box4 where
  a := loc.a * variance_xy * anchor.c + anchor.a
  b := loc.b * variance_xy * anchor.d + anchor.b
  c := Real.exp (loc.c * variance_wh) * anchor.c
  d := Real.exp (loc.d * variance_wh) * anchor.d

/-- Lines 21-27 of `core/anchors.py` (`AnchorLayer.generate_anchors`): the
row of index `k` of the numpy result pairs `scales[k % len(scales)]` with
`ratios[k / len(scales)]`; each row starts as `(b*s, b*s)`, its area
`(b*s)^2` is recorded, then `w := sqrt(area / ratio)` and `h := w * ratio`.
The outer list runs over `rs` (the ratios), the inner one over `ss`
(the scales), matching the `np.tile`/`np.repeat` layout. -/
noncomputable def generate_anchors (box_size : ℝ) (rs ss : List ℝ) : List (ℝ × ℝ) :=
  (rs.map (fun r => ss.map (fun s =>
    let w := Real.sqrt ((box_size * s) * (box_size * s) / r)
    (w, w * r)))).flatten

/-- The configuration record built by `Anchors.__init__`
(lines 52-67 of `core/anchors.py`). -/
structure AnchorsConfig where
  pyramid_levels : List ℕ
  strides : List ℕ
  base_size : ℕ
  sizes : List ℕ
  fg_iou_threshold : ℝ
  bg_iou_threshold : ℝ
  label_offset : ℤ
  variances : ℝ × ℝ

/-- Lines 52-67 of `core/anchors.py`, `Anchors.__init__` with default kwargs
except the two IoU thresholds.  The constructor only stores its arguments and
derived defaults; it performs no validation of any kind, so it never fails
(the `Except` return type records that no code path raises). -/
def anchors_init (fg bg : ℝ) : Except String AnchorsConfig :=
  Except.ok
    { pyramid_levels := [3, 4, 5, 6]
      strides := [8, 16, 32, 64]
      base_size := 32
      sizes := [32, 64, 128, 256]
      fg_iou_threshold := fg
      bg_iou_threshold := bg
      label_offset := 0
      variances := (0.1, 0.2) }

/-- Model of `torch.linspace(x, y, n)`: `n` evenly spaced points from `x` to `y`
inclusive (a single point is just `x`), as used by `AnchorLayer.make_grid`. -/
noncomputable def linspace (x y : ℝ) (n : ℕ) : List ℝ :=
  if n ≤ 1 then List.replicate n x
  else (List.range n).map (fun (k : ℕ) => x + k * (y - x) / ((n : ℝ) - 1))

/-- Lines 29-37 of `core/anchors.py` (`AnchorLayer.make_grid`): a
`height x width` grid of cell centers, each `(x, y)` pair replicated across
the `num_anchors` slots (the `expand` on line 36).  The `y` coordinates come
from `linspace(0.5*stride, (height-1+0.5)*stride, height)` and likewise `x`
from the width version; line 34 puts `grid_w` first so pairs are `(x, y)`. -/
noncomputable def make_grid (stride : ℝ) (num_anchors height width : ℕ) :
    List (List (List (ℝ × ℝ))) :=
  let gh := linspace (0.5 * stride) (((height : ℝ) - 1 + 0.5) * stride) height
  let gw := linspace (0.5 * stride) (((width : ℝ) - 1 + 0.5) * stride) width
  gh.map (fun y => gw.map (fun x => List.replicate num_anchors (x, y)))

/-- Lines 39-48 of `core/anchors.py` (`AnchorLayer.forward`): the grid of
centers is concatenated with the per-cell `(w, h)` table `box_sizes`
(broadcast over every cell on lines 44-45) and flattened to a `(-1, 4)`
list of `(cx, cy, w, h)` anchors. -/
noncomputable def anchor_layer_forward (stride : ℝ) (box_sizes : List (ℝ × ℝ))
    (height width : ℕ) : List Box4 :=
  ((make_grid stride box_sizes.length height width).map (fun row =>
    row.map (fun cell =>
      List.zipWith (fun xy wh => Box4.mk xy.1 xy.2 wh.1 wh.2) cell box_sizes))).flatten.flatten

/-- The `mode` strings recognised by `SSDLoss` (`core/ssd/loss.py`):
`'focal'` (the default), plain cross-entropy, and `'ohem'`
(cross-entropy with hard-negative mining). -/
inductive LossMode
  | focal
  | crossEntropy
  | ohem

/-- Model of `F.log_softmax(x, dim=1)[y]` for one row of logits. -/
noncomputable def log_softmax_at (x : List ℝ) (y : ℕ) : ℝ :=
  x.getD y 0 - Real.log ((x.map Real.exp).sum)

/-- Model of `F.cross_entropy(x, y, reduction='none')` for one row:
`-log_softmax(x)[y]` (line 126 of `core/ssd/loss.py`). -/
noncomputable def cross_entropy_at (x : List ℝ) (y : ℕ) : ℝ := -log_softmax_at x y

/-- Lines 48-65 of `core/ssd/loss.py` (`SSDLoss._softmax_focal_loss`) for one
anchor: `gamma = 2`, `ce = log_softmax(x)[y]`, `pt = exp ce`,
`loss = -((1 - pt)^gamma * ce)`. -/
noncomputable def softmax_focal_loss_at (x : List ℝ) (y : ℕ) : ℝ :=
  -((1 - Real.exp (log_softmax_at x y)) ^ 2 * log_softmax_at x y)

/-- The per-anchor classification loss selected by `SSDLoss.forward` lines
125-137: the softmax focal loss in `'focal'` mode (default
`use_sigmoid=False`), plain cross-entropy otherwise. -/
noncomputable def per_anchor_cls_loss (mode : LossMode) (x : List ℝ) (y : ℕ) : ℝ :=
  match mode with
  | .focal => softmax_focal_loss_at x y
  | _ => cross_entropy_at x y

/-- Lines 103-104 of `core/ssd/loss.py`: `cls_targets[cls_targets < 0] = 0`
(the in-place overwrite of ignored anchors). -/
def clamp_targets (ts : List ℤ) : List ℤ := ts.map (fun t => if t < 0 then 0 else t)

/-- Line 106: `pos = cls_targets > 0`, evaluated after the line 103-104
clamping, for one batch row. -/
def pos_row (ts : List ℤ) : List Bool := (clamp_targets ts).map (fun t => decide (0 < t))

/-- The per-anchor loss row (lines 126-128 / 137-138 of `core/ssd/loss.py`):
the chosen per-anchor loss applied to every anchor of a batch row against the
clamped targets. -/
noncomputable def raw_cls_row (mode : LossMode) (preds : List (List ℝ)) (ts : List ℤ) :
    List ℝ :=
  List.zipWith (fun x t => per_anchor_cls_loss mode x t.toNat) preds (clamp_targets ts)

/-- Lines 129 / 139 of `core/ssd/loss.py`: `cls_loss[mask_ign] = 0` — the
per-anchor loss of every anchor whose original target was negative is zeroed
after it has been computed. -/
def zero_ignored (loss_row : List ℝ) (ts : List ℤ) : List ℝ :=
  List.zipWith (fun l t => if t < 0 then 0 else l) loss_row ts

/-- Lines 29-46 of `core/ssd/loss.py` (`SSDLoss._hard_negative_mining`) for
one batch row: the per-anchor losses are negated on negatives and zeroed on
positives (`cls_loss * (pos - 1)`), the row is argsorted ascending (`idx`),
ranked (`rank`, the inverse permutation, here `idx.indexOf`), and anchor `k`
is selected iff its rank is below `3 * num_pos` of this row. -/
noncomputable def hnm_row (cls_loss : List ℝ) (pos : List Bool) : List Bool :=
  let masked := List.zipWith (fun l p => l * ((if p then (1 : ℝ) else 0) - 1)) cls_loss pos
  let idx := (List.range cls_loss.length).mergeSort
    (fun i j => decide (masked.getD i 0 ≤ masked.getD j 0))
  let num_neg := 3 * pos.count true
  (List.range cls_loss.length).map (fun k => decide (idx.indexOf k < num_neg))

/-- Line 132 of `core/ssd/loss.py`: the mask `pos | neg` over which the
hard-negative-mined classification loss is summed. -/
noncomputable def ohem_select_row (loss_row : List ℝ) (pos : List Bool) : List Bool :=
  List.zipWith (fun p n => p || n) pos (hnm_row loss_row pos)

/-- Lines 130-134 / 140 of `core/ssd/loss.py`: the classification-loss sum —
over `pos|neg` per batch row in `'ohem'` mode, over everything otherwise
(ignored entries have already been zeroed). -/
noncomputable def cls_loss_core (mode : LossMode) (zeroed : List (List ℝ))
    (pos : List (List Bool)) : ℝ :=
  match mode with
  | .ohem => (List.zipWith (fun lr pr =>
      (List.zipWith (fun l s => if s then l else 0) lr (ohem_select_row lr pr)).sum)
      zeroed pos).sum
  | _ => (zeroed.map List.sum).sum

/-- Model of `F.smooth_l1_loss` per coordinate (beta = 1):
`0.5 x^2` for `|x| < 1`, else `|x| - 0.5`. -/
noncomputable def smooth_l1 (x : ℝ) : ℝ := if |x| < 1 then 0.5 * x ^ 2 else |x| - 0.5

/-- Smooth-L1 summed over the 4 coordinates of one anchor's regression row. -/
noncomputable def box_smooth_l1 (p t : Box4) : ℝ :=
  smooth_l1 (p.a - t.a) + smooth_l1 (p.b - t.b) + smooth_l1 (p.c - t.c) + smooth_l1 (p.d - t.d)

/-- Lines 118-119 of `core/ssd/loss.py` restricted to one batch row:
`F.smooth_l1_loss(loc_preds[mask], loc_targets[mask], reduction='sum')` with
`mask` the positive-anchor mask. -/
noncomputable def loc_loss_row (lp lt : List Box4) (pos : List Bool) : ℝ :=
  (List.zipWith (fun pt s => if s then box_smooth_l1 pt.1 pt.2 else 0)
    (List.zip lp lt) pos).sum

/-- Lines 118-119 of `core/ssd/loss.py`: the masked smooth-L1 sum over the
whole batch. -/
noncomputable def loc_loss_sum (lp lt : List (List Box4)) (pos : List (List Bool)) : ℝ :=
  (List.zipWith (fun row pr => loc_loss_row row.1 row.2 pr) (List.zip lp lt) pos).sum

/-- Lines 135 / 141 / 144 of `core/ssd/loss.py`: `loss /= num_pos` where
`num_pos` is an integer count.  In IEEE arithmetic `x / 0` is NaN (or ±Inf),
which is not a real number; the division is therefore modelled as `none`
exactly when `num_pos = 0`. -/
noncomputable def div_by_count (x : ℝ) (n : ℕ) : Option ℝ :=
  if n = 0 then none else some (x / n)

/-- Lines 91-145 of `core/ssd/loss.py` (`SSDLoss.forward`) with the default
constructor flags `use_sigmoid=False`, `use_iou=False`.  Returns
`(loc_loss, cls_loss, cls_targets-after-the-call)`: the third component
records the in-place mutation of the caller's `cls_targets` tensor performed
by lines 103-104. -/
noncomputable def SSDLoss_forward (mode : LossMode) (loc_preds loc_targets : List (List Box4))
    (cls_preds : List (List (List ℝ))) (cls_targets : List (List ℤ)) :
    Option ℝ × Option ℝ × List (List ℤ) :=
  let targets_out := cls_targets.map clamp_targets
  let pos := cls_targets.map pos_row
  let num_pos := (pos.map (fun r => r.count true)).sum
  let loc_l := loc_loss_sum loc_preds loc_targets pos
  let zeroed := List.zipWith (fun preds_row ts_row =>
    zero_ignored (raw_cls_row mode preds_row ts_row) ts_row) cls_preds cls_targets
  let cls_l := cls_loss_core mode zeroed pos
  (div_by_count loc_l num_pos, div_by_count cls_l num_pos, targets_out)

/-- Model of `torch.sigmoid`. -/
noncomputable def sigmoid_r (x : ℝ) : ℝ := 1 / (1 + Real.exp (-x))

/-- Model of `F.binary_cross_entropy_with_logits(x, t)` per element (real-arithmetic
form `-(t log σ(x) + (1-t) log(1-σ(x)))`). -/
noncomputable def bce_with_logits (x t : ℝ) : ℝ :=
  -(t * Real.log (sigmoid_r x) + (1 - t) * Real.log (1 - sigmoid_r x))

/-- Lines 27-48 of `core/focal_loss.py` (`FocalLoss.sigmoid_focal_loss`) for
one anchor: `gamma = 3`, `alpha = 0.25`, one-hot target `t`,
`pt = p` where `t > 0` else `1 - p`, weight `(1-pt)^gamma` scaled by `alpha`
on the target class and `1 - alpha` elsewhere, applied to the element-wise
binary cross-entropy and summed over the classes. -/
noncomputable def sigmoid_focal_loss_row (num_classes : ℕ) (x : List ℝ) (y : ℕ) : ℝ :=
  ((List.range num_classes).map (fun c =>
    let t : ℝ := if c = y then 1 else 0
    let p := sigmoid_r (x.getD c 0)
    let pt := if 0 < t then p else 1 - p
    let w := (if 0 < t then (0.25 : ℝ) else 0.75) * (1 - pt) ^ 3
    w * bce_with_logits (x.getD c 0) t)).sum

/-- Lines 72-109 of `core/focal_loss.py` (`FocalLoss.forward`, default
sigmoid branch): positives are `cls_targets > 0`, the localization loss is
the positives-masked smooth-L1 sum, the classification loss is the sigmoid
focal loss over every non-ignored anchor (`cls_targets > -1`), and both are
divided by `num_pos` (lines 107-108) — NaN/Inf, i.e. `none`, when
`num_pos = 0`. -/
noncomputable def FocalLoss_forward (num_classes : ℕ)
    (loc_preds loc_targets : List (List Box4))
    (cls_preds : List (List (List ℝ))) (cls_targets : List (List ℤ)) :
    Option ℝ × Option ℝ :=
  let pos := cls_targets.map (fun ts => ts.map (fun t => decide (0 < t)))
  let num_pos := (pos.map (fun r => r.count true)).sum
  let loc_l := loc_loss_sum loc_preds loc_targets pos
  let valid := (List.zip cls_preds.flatten cls_targets.flatten).filter
    (fun p => decide (-1 < p.2))
  let cls_l := (valid.map (fun p => sigmoid_focal_loss_row num_classes p.1 p.2.toNat)).sum
  (div_by_count loc_l num_pos, div_by_count cls_l num_pos)

/-- The all-zero box, used as the (never-reached) out-of-range default when
indexing box lists. -/
def box4_zero : Box4 := Box4.mk 0 0 0 0

/-- Modelled from the spec: `change_box_order(boxes, "xywh2xyxy")` from
`core/utils/box.py` (the file is not under src); section 4.1: the pure
conversion `(cx, cy, w, h) -> (cx - w/2, cy - h/2, cx + w/2, cy + h/2)`. -/
noncomputable def change_box_order_xywh2xyxy (bx : Box4) : Box4 :=
  Box4.mk (bx.a - bx.c / 2) (bx.b - bx.d / 2) (bx.a + bx.c / 2) (bx.b + bx.d / 2)

/-- Modelled from the spec: `change_box_order(boxes, "xyxy2xywh")` from
`core/utils/box.py` (not under src); section 4.1: the pure conversion
`(x1, y1, x2, y2) -> ((x1+x2)/2, (y1+y2)/2, x2-x1, y2-y1)`. -/
noncomputable def change_box_order_xyxy2xywh (bx : Box4) : Box4 :=
  Box4.mk ((bx.a + bx.c) / 2) ((bx.b + bx.d) / 2) (bx.c - bx.a) (bx.d - bx.b)

/-- Modelled from the spec: `box_iou` from `core/utils/box.py` (not under
src) for one pair of corner-form boxes; section 4.1: intersection via clipped
min/max of corners, areas from corner differences,
`IoU = inter / (area_a + area_b - inter)` with zero division guarded
(0 when the union is 0); a degenerate zero-area box always yields
intersection 0, hence IoU 0 (zero overlap). -/
noncomputable def box_iou_pair (p q : Box4) : ℝ :=
  let iw := max 0 (min p.c q.c - max p.a q.a)
  let ih := max 0 (min p.d q.d - max p.b q.b)
  let inter := iw * ih
  let area_p := (p.c - p.a) * (p.d - p.b)
  let area_q := (q.c - q.a) * (q.d - q.b)
  if area_p + area_q - inter = 0 then 0 else inter / (area_p + area_q - inter)

/-- The index of the first maximal element of a list of reals (0 on the empty
list), modelling the index output of `tensor.max(dim)` used by the
spec-modelled `assign_priors` to pick each ground-truth box's best-matching
anchor. -/
noncomputable def argmax_real : List ℝ → ℕ
  | [] => 0
  | [_] => 0
  | x :: y :: ys =>
    if x < (y :: ys).getD (argmax_real (y :: ys)) 0 then argmax_real (y :: ys) + 1 else 0

/-- One anchor's assignment in the spec-modelled `assign_priors`: if some
ground-truth box force-assigned this anchor (it is the argmax anchor of that
box's IoU row; the last such box wins, matching a sequential overriding
loop), the anchor is positive with that box and label regardless of IoU;
otherwise the anchor takes its best ground truth by IoU and is positive at
`max >= fg_th`, background (label 0) below `bg_th`, ignored (label -1)
in the gray zone between. -/
noncomputable def assign_anchor (gt_boxes : List Box4) (gt_labels : List ℤ)
    (anchors_xyxy : List Box4) (fg_th bg_th : ℝ) (forced : List ℕ) (k : ℕ) :
    Box4 × ℤ :=
  match ((List.range gt_boxes.length).filter (fun t => forced.getD t 0 == k)).getLast? with
  | some t => (gt_boxes.getD t box4_zero, gt_labels.getD t 0)
  | none =>
    let col := gt_boxes.map (fun g => box_iou_pair g (anchors_xyxy.getD k box4_zero))
    let t_best := argmax_real col
    let m := col.getD t_best 0
    if fg_th ≤ m then (gt_boxes.getD t_best box4_zero, gt_labels.getD t_best 0)
    else if m < bg_th then (gt_boxes.getD t_best box4_zero, 0)
    else (gt_boxes.getD t_best box4_zero, -1)

/-- Modelled from the spec: `assign_priors` from `core/utils/box.py` (the
file is not under src; only its caller `Anchors.encode_boxes_from_anchors`
is).  Spec section 4.3 steps 1-5: (1) full IoU matrix, zero ground-truth
boxes making every anchor background; (2) every ground-truth box
force-assigns its best-matching anchor regardless of IoU; (3)-(4) every other
anchor takes the max IoU over the ground truth, positive at
`max >= fg_threshold`, background below `bg_threshold`, ignored in between;
(5) forced assignments override the thresholds.  Returns (matched boxes in
corner form, per-anchor class labels); background/ignored anchors still carry
their best box (they are masked out of the localization loss downstream). -/
noncomputable def assign_priors (gt_boxes : List Box4) (gt_labels : List ℤ)
    (anchors_xyxy : List Box4) (fg_th bg_th : ℝ) : List Box4 × List ℤ :=
  if gt_boxes.isEmpty then
    (anchors_xyxy, List.replicate anchors_xyxy.length 0)
  else
    let forced := gt_boxes.map (fun g =>
      argmax_real (anchors_xyxy.map (fun a => box_iou_pair g a)))
    ((List.range anchors_xyxy.length).map (fun k =>
      (assign_anchor gt_boxes gt_labels anchors_xyxy fg_th bg_th forced k).1),
     (List.range anchors_xyxy.length).map (fun k =>
      (assign_anchor gt_boxes gt_labels anchors_xyxy fg_th bg_th forced k).2))

/-- Lines 82-90 of `core/anchors.py` (`Anchors.encode_boxes_from_anchors`):
anchors go to corner form, `assign_priors` matches them against the ground
truth using the offset labels (line 84), the matched boxes come back to
`(cx, cy, w, h)` form and are encoded as offsets against the anchors.
Returns `(loc_targets, cls_targets)`. -/
noncomputable def encode_boxes_from_anchors (anchors_xywh gt_boxes : List Box4)
    (labels : List ℤ) (fg_th bg_th : ℝ) (label_offset : ℤ) : List Box4 × List ℤ :=
  let anchors_xyxy := anchors_xywh.map change_box_order_xywh2xyxy
  let assigned := assign_priors gt_boxes (labels.map (fun l => l + label_offset))
    anchors_xyxy fg_th bg_th
  let boxes_xywh := assigned.1.map change_box_order_xyxy2xywh
  (List.zipWith encode_offsets anchors_xywh boxes_xywh, assigned.2)

/-- Lines 146-155 of `core/anchors.py` (`Anchors.encode_txn_boxes`), the
per-(time, batch)-frame step: a frame with an empty ground-truth list is
replaced by the placeholder row `torch.ones((1,5)) * -1`, i.e. the single
degenerate box `(-1, -1, -1, -1)` with label `-1`, before encoding. -/
noncomputable def encode_txn_frame (anchors_xywh : List Box4)
    (frame : List (Box4 × ℤ)) (fg_th bg_th : ℝ) (label_offset : ℤ) :
    List Box4 × List ℤ :=
  let frame' := if frame.isEmpty then [(Box4.mk (-1) (-1) (-1) (-1), (-1 : ℤ))] else frame
  encode_boxes_from_anchors anchors_xywh (frame'.map Prod.fst) (frame'.map Prod.snd)
    fg_th bg_th label_offset

/-- Lines 93-96 of `core/anchors.py` (`Anchors.decode_boxes_from_anchors`):
the decoded `(cx, cy, w, h)` prediction converted to corner form
`box_preds = cat([xy - wh/2, xy + wh/2], 1)`. -/
noncomputable def decode_corner (anchor loc : Box4) : Box4 :=
  let d := decode_offsets anchor loc
  Box4.mk (d.a - d.c / 2) (d.b - d.d / 2) (d.a + d.c / 2) (d.b + d.d / 2)

/-- Modelled from the spec: the minimum-score floor of `box_soft_nms` from
`core/utils/box.py` (not under src).  The spec fixes no value ("a box is
dropped only when its decayed score falls below a minimum floor"); the
conventional soft-NMS floor `0.001` is used. -/
noncomputable def soft_nms_min_score : ℝ := 1 / 1000

/-- Picks the highest-current-score element (first such on ties) and the rest
of the list; the greedy step of the spec-modelled soft NMS.  Elements carry
`((box, original score), current decayed score)`. -/
noncomputable def pick_max_score :
    List ((Box4 × ℝ) × ℝ) → Option (((Box4 × ℝ) × ℝ) × List ((Box4 × ℝ) × ℝ))
  | [] => none
  | x :: xs =>
    match pick_max_score xs with
    | none => some (x, [])
    | some (b, rest) => if x.2 < b.2 then some (b, x :: rest) else some (x, xs)

/-- Modelled from the spec: the decay step of `box_soft_nms` — a box whose
IoU with the kept box reaches the NMS threshold has its current score
multiplied by the linear decay `1 - IoU`; others keep their score.  The
carried original `(box, score)` pair is untouched. -/
noncomputable def soft_nms_decay (kept : Box4) (nms_th : ℝ) (x : (Box4 × ℝ) × ℝ) :
    (Box4 × ℝ) × ℝ :=
  (x.1, if nms_th ≤ box_iou_pair kept x.1.1
    then x.2 * (1 - box_iou_pair kept x.1.1) else x.2)

/-- Modelled from the spec: the greedy loop of `box_soft_nms` from
`core/utils/box.py` (not under src); section 4.1: repeatedly keep the
highest-scoring remaining box, decay the overlapping remainder, and drop a
box (and everything below it) only when its decayed score falls below the
floor.  `fuel` starts at the list length; one element is removed per
iteration so the fuel is never exhausted early. -/
noncomputable def soft_nms_loop : ℕ → List ((Box4 × ℝ) × ℝ) → ℝ → List (Box4 × ℝ)
  | 0, _, _ => []
  | fuel + 1, l, nms_th =>
    match pick_max_score l with
    | none => []
    | some (b, rest) =>
      if b.2 < soft_nms_min_score then []
      else b.1 :: soft_nms_loop fuel (rest.map (soft_nms_decay b.1.1 nms_th)) nms_th

/-- Modelled from the spec: `box_soft_nms` from `core/utils/box.py` (not
under src), the default `self.nms` of `Anchors` (`nms_type = "soft_nms"`,
line 66-67 of `core/anchors.py`).  Returns the kept `(box, original score)`
pairs — the caller indexes the original score tensor with the keep set. -/
noncomputable def box_soft_nms (pairs : List (Box4 × ℝ)) (nms_th : ℝ) :
    List (Box4 × ℝ) :=
  soft_nms_loop pairs.length (pairs.map (fun p => (p, p.2))) nms_th

/-- Lines 101-114 of `core/anchors.py` inside `decode_boxes_from_anchors`:
the per-class step for foreground class `i` (score column `i + 1`): the
`score > score_thresh` mask, `continue` (here `none`) when the mask is empty,
otherwise the soft-NMS survivors tagged with class id `i` and score. -/
noncomputable def decode_class (box_preds : List Box4) (cls_preds : List (List ℝ))
    (score_thresh nms_thresh : ℝ) (i : ℕ) : Option (List (Box4 × ℕ × ℝ)) :=
  let col := cls_preds.map (fun r => r.getD (i + 1) 0)
  let pairs := (List.zip box_preds col).filter (fun p => decide (score_thresh < p.2))
  if pairs.isEmpty then none
  else some ((box_soft_nms pairs nms_thresh).map (fun p => (p.1, i, p.2)))

/-- Lines 92-122 of `core/anchors.py` (`Anchors.decode_boxes_from_anchors`
with the default `soft_nms`): predictions are decoded to corner boxes, each
foreground class column `1 .. C-1` is filtered by score and run through NMS
independently, and the per-class survivors are concatenated; `none` models
the explicit `(None, None, None)` empty return taken exactly when no class
contributed a group. -/
noncomputable def decode_boxes_from_anchors (anchors loc_preds : List Box4)
    (cls_preds : List (List ℝ)) (score_thresh nms_thresh : ℝ) :
    Option (List (Box4 × ℕ × ℝ)) :=
  let box_preds := List.zipWith decode_corner anchors loc_preds
  let num_classes := (cls_preds.getD 0 []).length
  let groups := (List.range (num_classes - 1)).filterMap
    (fun i => decode_class box_preds cls_preds score_thresh nms_thresh i)
  if groups.isEmpty then none else some groups.flatten

/-- C1: Box-coder round trip.  For every anchor in `(cx, cy, w, h)` form with
positive width and height and every matched box with positive width and
height, decoding (lines 93-94) the encoded regression target (lines 87-89)
with the default variances `(0.1, 0.2)` reproduces the matched box exactly in
real arithmetic. -/
theorem coder_round_trip (anchor bx : Box4)
    (hw : 0 < anchor.c) (hh : 0 < anchor.d) (hbw : 0 < bx.c) (hbh : 0 < bx.d) :
    decode_offsets anchor (encode_offsets anchor bx) = bx := by
  have hw' : anchor.c ≠ 0 := ne_of_gt hw
  have hh' : anchor.d ≠ 0 := ne_of_gt hh
  ext
  · show (bx.a - anchor.a) / anchor.c / variance_xy * variance_xy * anchor.c + anchor.a = bx.a
    have hv : (variance_xy : ℝ) ≠ 0 := by norm_num [variance_xy]
    field_simp
    ring
  · show (bx.b - anchor.b) / anchor.d / variance_xy * variance_xy * anchor.d + anchor.b = bx.b
    have hv : (variance_xy : ℝ) ≠ 0 := by norm_num [variance_xy]
    field_simp
    ring
  · show Real.exp (Real.log (bx.c / anchor.c) / variance_wh * variance_wh) * anchor.c = bx.c
    have hv : (variance_wh : ℝ) ≠ 0 := by norm_num [variance_wh]
    rw [div_mul_cancel₀ _ hv, Real.exp_log (div_pos hbw hw), div_mul_cancel₀ _ hw']
  · show Real.exp (Real.log (bx.d / anchor.d) / variance_wh * variance_wh) * anchor.d = bx.d
    have hv : (variance_wh : ℝ) ≠ 0 := by norm_num [variance_wh]
    rw [div_mul_cancel₀ _ hv, Real.exp_log (div_pos hbh hh), div_mul_cancel₀ _ hh']

/-- Witness for C1 at the concrete anchor `(1, 2, 4, 8)` and matched box
`(3, 5, 2, 4)`. -/
theorem coder_round_trip_witness :
    decode_offsets ⟨1, 2, 4, 8⟩ (encode_offsets ⟨1, 2, 4, 8⟩ ⟨3, 5, 2, 4⟩) = ⟨3, 5, 2, 4⟩ :=
  coder_round_trip ⟨1, 2, 4, 8⟩ ⟨3, 5, 2, 4⟩ (by norm_num) (by norm_num) (by norm_num)
    (by norm_num)

/-- C3: for every base box size `b`, scale `s` and aspect `r` given to
`AnchorLayer.generate_anchors`, the generated pair `(anchor_w, anchor_h)`
satisfies `anchor_w * anchor_h = (b*s)^2` and `anchor_h / anchor_w = r`
(area-preserving aspect adjustment). -/
theorem generate_anchors_area_aspect (box_size r s : ℝ) (rs ss : List ℝ)
    (hr : 0 < r) (hbs : 0 < box_size * s) (hmr : r ∈ rs) (hms : s ∈ ss) :
    ∃ wh ∈ generate_anchors box_size rs ss,
      wh.1 * wh.2 = (box_size * s) * (box_size * s) ∧ wh.2 / wh.1 = r := by
  have harea : (0 : ℝ) < (box_size * s) * (box_size * s) / r :=
    div_pos (mul_pos hbs hbs) hr
  have hwpos : 0 < Real.sqrt ((box_size * s) * (box_size * s) / r) :=
    Real.sqrt_pos.mpr harea
  refine ⟨(Real.sqrt ((box_size * s) * (box_size * s) / r),
    Real.sqrt ((box_size * s) * (box_size * s) / r) * r), ?_, ?_, ?_⟩
  · exact List.mem_flatten.mpr
      ⟨_, List.mem_map.mpr ⟨r, hmr, rfl⟩, List.mem_map.mpr ⟨s, hms, rfl⟩⟩
  · show Real.sqrt ((box_size * s) * (box_size * s) / r) *
      (Real.sqrt ((box_size * s) * (box_size * s) / r) * r) =
        (box_size * s) * (box_size * s)
    rw [← mul_assoc, Real.mul_self_sqrt (le_of_lt harea),
      div_mul_cancel₀ _ (ne_of_gt hr)]
  · show Real.sqrt ((box_size * s) * (box_size * s) / r) * r /
      Real.sqrt ((box_size * s) * (box_size * s) / r) = r
    rw [mul_comm, mul_div_assoc, div_self (ne_of_gt hwpos), mul_one]

/-- Witness for C3 at `box_size = 24`, `ratios = [2]`, `scales = [1]`. -/
theorem generate_anchors_area_aspect_witness :
    ∃ wh ∈ generate_anchors 24 [2] [1],
      wh.1 * wh.2 = ((24 : ℝ) * 1) * (24 * 1) ∧ wh.2 / wh.1 = 2 :=
  generate_anchors_area_aspect 24 2 1 [2] [1] (by norm_num) (by norm_num)
    (by simp) (by simp)

/-- C7 counterexample: constructing the anchor configuration with
`fg_iou_threshold = 0.3 < 0.5 = bg_iou_threshold` succeeds — no configuration
error is raised at construction time, contradicting the claim. -/
theorem anchors_init_no_validation_counterexample :
    (anchors_init 0.3 0.5).isOk = true ∧ (0.3 : ℝ) < 0.5 :=
  ⟨rfl, by norm_num⟩

/-- C7 amended: `Anchors.__init__` performs no threshold validation at all;
construction with `fg_iou_threshold < bg_iou_threshold` succeeds and no error
is raised. -/
theorem anchors_init_no_validation (fg bg : ℝ) (_h : fg < bg) :
    (anchors_init fg bg).isOk = true := rfl

/-- Witness for the amended C7 at `fg = 0.2 < 0.6 = bg`. -/
theorem anchors_init_no_validation_witness :
    (anchors_init 0.2 0.6).isOk = true :=
  anchors_init_no_validation 0.2 0.6 (by norm_num)

theorem linspace_grid (stride : ℝ) (n : ℕ) :
    linspace (0.5 * stride) (((n : ℝ) - 1 + 0.5) * stride) n =
      (List.range n).map (fun (k : ℕ) => (0.5 + (k : ℝ)) * stride) := by
  match n with
  | 0 => simp [linspace]
  | 1 =>
    rw [linspace, if_pos (by omega)]
    rw [show List.range 1 = [0] from rfl, List.map_cons, List.map_nil]
    norm_num
  | (m + 2) =>
    rw [linspace, if_neg (by omega)]
    apply List.map_congr_left
    intro k _
    have hm : ((m + 2 : ℕ) : ℝ) - 1 = (m : ℝ) + 1 := by push_cast; ring
    have hne : ((m : ℝ) + 1) ≠ 0 := by positivity
    rw [hm]
    field_simp
    ring

theorem zipWith_replicate_length {α β γ : Type} (f : α → β → γ) (x : α) (l : List β) :
    List.zipWith f (List.replicate l.length x) l = l.map (f x) := by
  induction l with
  | nil => rfl
  | cons b bs ih => simp only [List.length_cons, List.replicate_succ,
      List.zipWith_cons_cons, List.map_cons, ih]

theorem anchor_layer_forward_eq (stride : ℝ) (bs : List (ℝ × ℝ)) (H W : ℕ) :
    anchor_layer_forward stride bs H W =
      (List.range H).flatMap (fun (row : ℕ) => (List.range W).flatMap (fun (col : ℕ) =>
        bs.map (fun wh => Box4.mk ((0.5 + (col : ℝ)) * stride)
          ((0.5 + (row : ℝ)) * stride) wh.1 wh.2))) := by
  unfold anchor_layer_forward make_grid
  rw [linspace_grid, linspace_grid, List.flatten_flatten]
  rw [List.flatMap_def]
  simp only [List.map_map]
  congr 1
  apply List.map_congr_left
  intro i _
  rw [List.flatMap_def]
  simp only [Function.comp_apply, List.map_map]
  congr 1
  apply List.map_congr_left
  intro j _
  simp only [Function.comp_apply]
  rw [zipWith_replicate_length]

theorem anchor_layer_forward_length (stride : ℝ) (bs : List (ℝ × ℝ)) (H W : ℕ) :
    (anchor_layer_forward stride bs H W).length = H * W * bs.length := by
  rw [anchor_layer_forward_eq, List.length_flatMap]
  have hinner : ∀ row : ℕ,
      ((List.range W).flatMap (fun (col : ℕ) => bs.map (fun wh =>
        Box4.mk ((0.5 + (col : ℝ)) * stride) ((0.5 + (row : ℝ)) * stride)
          wh.1 wh.2))).length = W * bs.length := by
    intro row
    rw [List.length_flatMap]
    simp [Function.comp_def, List.map_const', List.sum_replicate]
  rw [show (List.length ∘ fun (row : ℕ) => (List.range W).flatMap
        (fun (col : ℕ) => bs.map (fun wh => Box4.mk ((0.5 + (col : ℝ)) * stride)
          ((0.5 + (row : ℝ)) * stride) wh.1 wh.2))) = fun (_ : ℕ) => W * bs.length
      from funext fun row => hinner row]
  simp [List.map_const', List.sum_replicate, mul_assoc]

theorem generate_anchors_24_scenario :
    generate_anchors 24 [1] [1, 1.5] = [(24, 24), (36, 36)] := by
  have h1 : ((24 : ℝ) * 1) * (24 * 1) / 1 = 24 ^ 2 := by norm_num
  have h2 : ((24 : ℝ) * 1.5) * (24 * 1.5) / 1 = 36 ^ 2 := by norm_num
  simp only [generate_anchors, List.map_cons, List.map_nil, List.flatten]
  rw [h1, h2, Real.sqrt_sq (by norm_num : (0:ℝ) ≤ 24),
    Real.sqrt_sq (by norm_num : (0:ℝ) ≤ 36)]
  norm_num

/-- C4: (i) the anchor list returned by `AnchorLayer.forward` for an `(H, W)`
feature map with `A = box_sizes.length` anchors per cell is exactly the
row-major grid whose cell `(row, col)` holds the `A` boxes centered at
`((0.5 + col) * stride, (0.5 + row) * stride)`; (ii) it has exactly
`H * W * A` rows; (iii)-(iv) in particular, with `base_size = 24`,
`ratios = [1]`, `scales = [1, 1.5]` at stride 8 on an 8x8 feature map it
returns the 128 boxes centered at `(4 + 8k, 4 + 8j)`. -/
theorem anchor_layer_grid_spec (stride : ℝ) (bs : List (ℝ × ℝ)) (H W : ℕ) :
    (anchor_layer_forward stride bs H W =
      (List.range H).flatMap (fun (row : ℕ) => (List.range W).flatMap (fun (col : ℕ) =>
        bs.map (fun wh => Box4.mk ((0.5 + (col : ℝ)) * stride)
          ((0.5 + (row : ℝ)) * stride) wh.1 wh.2)))) ∧
    (anchor_layer_forward stride bs H W).length = H * W * bs.length ∧
    (anchor_layer_forward 8 (generate_anchors 24 [1] [1, 1.5]) 8 8 =
      (List.range 8).flatMap (fun (row : ℕ) => (List.range 8).flatMap (fun (col : ℕ) =>
        [Box4.mk (4 + 8 * (col : ℝ)) (4 + 8 * (row : ℝ)) 24 24,
         Box4.mk (4 + 8 * (col : ℝ)) (4 + 8 * (row : ℝ)) 36 36]))) ∧
    (anchor_layer_forward 8 (generate_anchors 24 [1] [1, 1.5]) 8 8).length = 128 := by
  refine ⟨anchor_layer_forward_eq stride bs H W, anchor_layer_forward_length stride bs H W,
    ?_, ?_⟩
  · rw [generate_anchors_24_scenario, anchor_layer_forward_eq]
    apply List.flatMap_congr
    intro row _
    apply List.flatMap_congr
    intro col _
    have hc : ((0.5 : ℝ) + (col : ℝ)) * 8 = 4 + 8 * (col : ℝ) := by ring
    have hr : ((0.5 : ℝ) + (row : ℝ)) * 8 = 4 + 8 * (row : ℝ) := by ring
    simp [hc, hr]
  · rw [generate_anchors_24_scenario, anchor_layer_forward_length]
    rfl

/-- C2 (code bug): on a batch with no positive anchor (here one anchor with
background target 0), `SSDLoss.forward` and `FocalLoss.forward` both divide
their loss sums by `num_pos = 0`, producing NaN/Inf (`none`) for both
returned losses — not the `0` the claim requires. -/
theorem zero_positives_division_by_zero :
    SSDLoss_forward LossMode.focal [[Box4.mk 0 0 0 0]] [[Box4.mk 0 0 0 0]]
        [[[1, 2]]] [[0]] = (none, none, [[0]]) ∧
    FocalLoss_forward 2 [[Box4.mk 0 0 0 0]] [[Box4.mk 0 0 0 0]]
        [[[1, 2]]] [[0]] = (none, none) := by
  constructor
  · simp [SSDLoss_forward, div_by_count, pos_row, clamp_targets]
  · simp [FocalLoss_forward, div_by_count]

/-- C10: `SSDLoss.forward` mutates its `cls_targets` argument in place —
after any call the caller's tensor equals the original with every negative
entry overwritten by 0 (first conjunct), and in particular contains no
negative entry (second conjunct). -/
theorem forward_mutates_cls_targets (mode : LossMode) (lp lt : List (List Box4))
    (cp : List (List (List ℝ))) (ct : List (List ℤ)) :
    (SSDLoss_forward mode lp lt cp ct).2.2 =
      ct.map (List.map (fun t => if t < 0 then 0 else t)) ∧
    ((SSDLoss_forward mode lp lt cp ct).2.2.all (fun row =>
      row.all (fun t => decide (0 ≤ t)))) = true := by
  refine ⟨rfl, ?_⟩
  show (ct.map clamp_targets).all _ = true
  simp only [List.all_eq_true, List.mem_map, clamp_targets]
  rintro row ⟨r0, _, rfl⟩ t ht
  simp only [List.mem_map] at ht
  obtain ⟨t0, _, rfl⟩ := ht
  by_cases h : t0 < 0
  · simp [h]
  · simp only [h, if_false, decide_eq_true_eq]
    omega

theorem zeroed_row_congr (mode : LossMode) (xs ys : List (List ℝ)) (ts : List ℤ)
    (hx : xs.length = ts.length) (hy : ys.length = ts.length)
    (hagree : ∀ i : ℕ, 0 ≤ ts.getD i (-1) → xs.getD i [] = ys.getD i []) :
    zero_ignored (raw_cls_row mode xs ts) ts = zero_ignored (raw_cls_row mode ys ts) ts := by
  induction ts generalizing xs ys with
  | nil =>
    cases xs with
    | nil =>
      cases ys with
      | nil => rfl
      | cons y ys => simp at hy
    | cons x xs => simp at hx
  | cons t ts ih =>
    cases xs with
    | nil => simp at hx
    | cons x xs =>
      cases ys with
      | nil => simp at hy
      | cons y ys =>
        simp only [raw_cls_row, clamp_targets, List.map_cons, List.zipWith_cons_cons,
          zero_ignored]
        congr 1
        · by_cases ht : t < 0
          · simp [ht]
          · have hxy : x = y := by
              have h0 := hagree 0 (by simp [List.getD]; omega)
              simpa [List.getD] using h0
            simp [ht, hxy]
        · have htail := ih xs ys (by simpa using hx) (by simpa using hy)
            (fun i hi => by
              have := hagree (i + 1) (by simpa [List.getD_cons_succ] using hi)
              simpa [List.getD_cons_succ] using this)
          simpa [raw_cls_row, clamp_targets, zero_ignored] using htail

theorem zeroed_rows_congr (mode : LossMode) (cp1 cp2 : List (List (List ℝ)))
    (ct : List (List ℤ))
    (h1 : cp1.length = ct.length) (h2 : cp2.length = ct.length)
    (hrow : ∀ b : ℕ, (cp1.getD b []).length = (ct.getD b []).length ∧
      (cp2.getD b []).length = (ct.getD b []).length)
    (hagree : ∀ b i : ℕ, 0 ≤ ((ct.getD b []).getD i (-1)) →
      (cp1.getD b []).getD i [] = (cp2.getD b []).getD i []) :
    List.zipWith (fun preds_row ts_row =>
      zero_ignored (raw_cls_row mode preds_row ts_row) ts_row) cp1 ct =
    List.zipWith (fun preds_row ts_row =>
      zero_ignored (raw_cls_row mode preds_row ts_row) ts_row) cp2 ct := by
  induction ct generalizing cp1 cp2 with
  | nil =>
    cases cp1 with
    | nil =>
      cases cp2 with
      | nil => rfl
      | cons _ _ => simp at h2
    | cons _ _ => simp at h1
  | cons tr ct ih =>
    cases cp1 with
    | nil => simp at h1
    | cons p1 cp1 =>
      cases cp2 with
      | nil => simp at h2
      | cons p2 cp2 =>
        simp only [List.zipWith_cons_cons]
        congr 1
        · refine zeroed_row_congr mode p1 p2 tr ?_ ?_ ?_
          · simpa [List.getD] using (hrow 0).1
          · simpa [List.getD] using (hrow 0).2
          · intro i hi
            simpa [List.getD] using hagree 0 i (by simpa [List.getD] using hi)
        · refine ih cp1 cp2 (by simpa using h1) (by simpa using h2) ?_ ?_
          · intro b
            exact ⟨by simpa [List.getD_cons_succ] using (hrow (b + 1)).1,
              by simpa [List.getD_cons_succ] using (hrow (b + 1)).2⟩
          · intro b i hi
            have := hagree (b + 1) i (by simpa [List.getD_cons_succ] using hi)
            simpa [List.getD_cons_succ] using this

/-- C6: ignored anchors contribute nothing to the classification loss.  Two
calls to `SSDLoss.forward` whose `cls_preds` agree at every anchor whose
target is non-negative (they may differ arbitrarily at anchors with target
`-1`) return the same `cls_loss`, in every mode: the per-anchor loss is
computed over all entries and the ignored ones are zeroed before any
reduction (lines 129 / 139) and before hard-negative mining (line 131). -/
theorem cls_loss_ignores_ignored_preds (mode : LossMode)
    (lp lt : List (List Box4)) (cp1 cp2 : List (List (List ℝ))) (ct : List (List ℤ))
    (h1 : cp1.length = ct.length) (h2 : cp2.length = ct.length)
    (hrow : ∀ b : ℕ, (cp1.getD b []).length = (ct.getD b []).length ∧
      (cp2.getD b []).length = (ct.getD b []).length)
    (hagree : ∀ b i : ℕ, 0 ≤ ((ct.getD b []).getD i (-1)) →
      (cp1.getD b []).getD i [] = (cp2.getD b []).getD i []) :
    (SSDLoss_forward mode lp lt cp1 ct).2.1 = (SSDLoss_forward mode lp lt cp2 ct).2.1 := by
  have hz := zeroed_rows_congr mode cp1 cp2 ct h1 h2 hrow hagree
  simp only [SSDLoss_forward]
  rw [hz]

/-- Witness for C6: one batch row with targets `[1, -1]`; the two `cls_preds`
tensors agree on the positive anchor and differ on the ignored one, and the
returned `cls_loss` is the same (here in `'ohem'` mode). -/
theorem cls_loss_ignores_ignored_preds_witness :
    (SSDLoss_forward LossMode.ohem [[Box4.mk 0 0 0 0, Box4.mk 0 0 0 0]]
        [[Box4.mk 0 0 0 0, Box4.mk 0 0 0 0]]
        [[[0, 1], [2, 3]]] [[1, -1]]).2.1 =
    (SSDLoss_forward LossMode.ohem [[Box4.mk 0 0 0 0, Box4.mk 0 0 0 0]]
        [[Box4.mk 0 0 0 0, Box4.mk 0 0 0 0]]
        [[[0, 1], [9, 9]]] [[1, -1]]).2.1 := by
  apply cls_loss_ignores_ignored_preds
  · rfl
  · rfl
  · intro b
    match b with
    | 0 => constructor <;> rfl
    | b + 1 => constructor <;> rfl
  · intro b i hi
    match b, i with
    | 0, 0 => rfl
    | 0, 1 => simp [List.getD] at hi
    | 0, (i + 2) => simp [List.getD] at hi
    | (b + 1), i => simp [List.getD] at hi

theorem getD_zipWith_both {α β γ : Type} (f : α → β → γ) (as : List α) (bs : List β)
    (k : ℕ) (da : α) (db : β) (dc : γ) (ha : k < as.length) (hb : k < bs.length) :
    (List.zipWith f as bs).getD k dc = f (as.getD k da) (bs.getD k db) := by
  have hl : k < (List.zipWith f as bs).length := by
    rw [List.length_zipWith]
    exact lt_min ha hb
  rw [List.getD_eq_getElem _ _ hl, List.getD_eq_getElem _ _ ha,
    List.getD_eq_getElem _ _ hb, List.getElem_zipWith]

theorem countP_indexOf_lt (idx : List ℕ) (n m : ℕ) (hperm : idx.Perm (List.range n)) :
    (List.range n).countP (fun k => decide (idx.indexOf k < m)) ≤ m := by
  classical
  rw [List.countP_eq_length_filter]
  have hnodupL : ((List.range n).filter (fun k => decide (idx.indexOf k < m))).Nodup :=
    (List.nodup_range n).filter _
  have hmemidx : ∀ k ∈ (List.range n).filter (fun k => decide (idx.indexOf k < m)),
      k ∈ idx := by
    intro k hk
    exact (hperm.mem_iff).mpr (List.mem_filter.mp hk).1
  have hmap : (((List.range n).filter (fun k => decide (idx.indexOf k < m))).map
      (fun k => idx.indexOf k)).Nodup := by
    refine List.Nodup.map_on ?_ hnodupL
    intro x hx y hy hxy
    exact (List.indexOf_inj (hmemidx x hx) (hmemidx y hy)).mp hxy
  have hcard : (((List.range n).filter (fun k => decide (idx.indexOf k < m))).map
      (fun k => idx.indexOf k)).length ≤ m := by
    rw [← List.toFinset_card_of_nodup hmap]
    have hsub : (((List.range n).filter (fun k => decide (idx.indexOf k < m))).map
        (fun k => idx.indexOf k)).toFinset ⊆ Finset.range m := by
      intro j hj
      rw [Finset.mem_range]
      obtain ⟨k, hk, rfl⟩ := List.mem_map.mp (List.mem_toFinset.mp hj)
      have := (List.mem_filter.mp hk).2
      simpa using this
    calc (((List.range n).filter (fun k => decide (idx.indexOf k < m))).map
          (fun k => idx.indexOf k)).toFinset.card
        ≤ (Finset.range m).card := Finset.card_le_card hsub
      _ = m := Finset.card_range m
  simpa using hcard

/-- C5: properties of the hard-negative-mining selection mask `pos|neg`
(`SSDLoss._hard_negative_mining` plus line 132 of `core/ssd/loss.py`), for
one batch row — the mask is computed per batch element, with `3 * num_pos`
counted from that row alone.  (i) every positive anchor is selected;
(ii) at most `3 * num_pos` negatives are selected; (iii) every selected
negative's (zeroed) cross-entropy loss is at least as large as that of any
unselected anchor — the retained negatives are the largest-loss ones. -/
theorem ohem_selects_top_negatives (lr : List ℝ) (pr : List Bool)
    (hlen : pr.length = lr.length) :
    (∀ k : ℕ, pr.getD k false = true →
      (ohem_select_row lr pr).getD k false = true) ∧
    ((List.range lr.length).countP (fun k =>
      (ohem_select_row lr pr).getD k false && !(pr.getD k false)) ≤ 3 * pr.count true) ∧
    (∀ j k : ℕ, j < lr.length → k < lr.length →
      (ohem_select_row lr pr).getD j false = true → pr.getD j false = false →
      (ohem_select_row lr pr).getD k false = false →
      lr.getD k 0 ≤ lr.getD j 0) := by
  classical
  have hselceq : ohem_select_row lr pr = List.zipWith (fun p m => p || m) pr
      ((List.range lr.length).map (fun k =>
        decide (((List.range lr.length).mergeSort
          (fun i j => decide ((List.zipWith (fun l p =>
              l * ((if p then (1 : ℝ) else 0) - 1)) lr pr).getD i 0 ≤
            (List.zipWith (fun l p =>
              l * ((if p then (1 : ℝ) else 0) - 1)) lr pr).getD j 0))).indexOf k <
          3 * pr.count true))) := rfl
  set masked := List.zipWith (fun l p => l * ((if p then (1 : ℝ) else 0) - 1)) lr pr
    with hmaskedeq
  set cmpf := fun i j : ℕ => decide (masked.getD i 0 ≤ masked.getD j 0) with hcmpfeq
  set idx := (List.range lr.length).mergeSort cmpf with hidxeq
  set num_neg := 3 * pr.count true with hnumnegeq
  have hperm : idx.Perm (List.range lr.length) := List.mergeSort_perm _ cmpf
  have hmem : ∀ k : ℕ, k < lr.length → k ∈ idx := fun k hk =>
    (hperm.mem_iff).mpr (List.mem_range.mpr hk)
  have hsel : ∀ k : ℕ, k < lr.length → (ohem_select_row lr pr).getD k false =
      (pr.getD k false || decide (idx.indexOf k < num_neg)) := by
    intro k hk
    rw [hselceq, getD_zipWith_both _ pr _ k false false false (by omega)
      (by simpa using hk)]
    congr 1
    rw [List.getD_eq_getElem _ _ (by simpa using hk), List.getElem_map,
      List.getElem_range]
  refine ⟨?_, ?_, ?_⟩
  · intro k hkpos
    have hk : k < lr.length := by
      by_contra hcon
      rw [List.getD_eq_default _ _ (by omega)] at hkpos
      exact Bool.false_ne_true hkpos
    rw [hsel k hk, hkpos, Bool.true_or]
  · have hmono : ∀ k ∈ List.range lr.length,
        ((ohem_select_row lr pr).getD k false && !(pr.getD k false)) = true →
        decide (idx.indexOf k < num_neg) = true := by
      intro k hkr hband
      have hk : k < lr.length := List.mem_range.mp hkr
      rw [Bool.and_eq_true, Bool.not_eq_eq_eq_not, Bool.not_true] at hband
      obtain ⟨hselk, hprk⟩ := hband
      rw [hsel k hk, hprk, Bool.false_or] at hselk
      exact hselk
    calc (List.range lr.length).countP (fun k =>
          (ohem_select_row lr pr).getD k false && !(pr.getD k false))
        ≤ (List.range lr.length).countP (fun k => decide (idx.indexOf k < num_neg)) :=
          List.countP_mono_left hmono
      _ ≤ num_neg := countP_indexOf_lt idx lr.length num_neg hperm
  · intro j k hj hk hselj hprj hselk
    have hjlt : idx.indexOf j < num_neg := by
      rw [hsel j hj, hprj, Bool.false_or, decide_eq_true_eq] at hselj
      exact hselj
    have hknot : ¬ (idx.indexOf k < num_neg) := by
      rw [hsel k hk] at hselk
      rw [Bool.or_eq_false_iff, decide_eq_false_iff_not] at hselk
      exact hselk.2
    have hprk : pr.getD k false = false := by
      rw [hsel k hk, Bool.or_eq_false_iff] at hselk
      exact hselk.1
    have hsorted : List.Pairwise (fun a b => cmpf a b = true) idx :=
      List.sorted_mergeSort
        (by
          intro a b c hab hbc
          simp only [hcmpfeq, decide_eq_true_eq] at *
          exact le_trans hab hbc)
        (by
          intro a b
          simp only [hcmpfeq, Bool.or_eq_true, decide_eq_true_eq]
          exact le_total _ _)
        (List.range lr.length)
    have hjidx : idx.indexOf j < idx.length := List.indexOf_lt_length.mpr (hmem j hj)
    have hkidx : idx.indexOf k < idx.length := List.indexOf_lt_length.mpr (hmem k hk)
    have hfin : (⟨idx.indexOf j, hjidx⟩ : Fin idx.length) < ⟨idx.indexOf k, hkidx⟩ := by
      simp only [Fin.mk_lt_mk]
      omega
    have hrel := List.pairwise_iff_get.mp hsorted ⟨idx.indexOf j, hjidx⟩
      ⟨idx.indexOf k, hkidx⟩ hfin
    rw [List.indexOf_get hjidx, List.indexOf_get hkidx, hcmpfeq] at hrel
    have hmle : masked.getD j 0 ≤ masked.getD k 0 := by
      simpa using hrel
    rw [hmaskedeq, getD_zipWith_both _ lr pr j 0 false 0 hj (by omega),
      getD_zipWith_both _ lr pr k 0 false 0 hk (by omega), hprj, hprk] at hmle
    simp only [Bool.false_eq_true, if_false, zero_sub, mul_neg, mul_one] at hmle
    linarith

/-- Witness for C5: 2 positives among 100 anchors — the selection mask keeps
every positive and at most `3 * 2 = 6` negatives (top-ranked by loss). -/
theorem ohem_selects_top_negatives_witness :
    (([true, true] ++ List.replicate 98 false).length =
      ((List.range 100).map (fun (k : ℕ) => (k : ℝ))).length) ∧
    ((∀ k : ℕ, ([true, true] ++ List.replicate 98 false).getD k false = true →
      (ohem_select_row ((List.range 100).map (fun (k : ℕ) => (k : ℝ)))
        ([true, true] ++ List.replicate 98 false)).getD k false = true) ∧
    ((List.range ((List.range 100).map (fun (k : ℕ) => (k : ℝ))).length).countP (fun k =>
      (ohem_select_row ((List.range 100).map (fun (k : ℕ) => (k : ℝ)))
        ([true, true] ++ List.replicate 98 false)).getD k false &&
      !(([true, true] ++ List.replicate 98 false).getD k false)) ≤
        3 * ([true, true] ++ List.replicate 98 false).count true) ∧
    (∀ j k : ℕ, j < ((List.range 100).map (fun (k : ℕ) => (k : ℝ))).length →
      k < ((List.range 100).map (fun (k : ℕ) => (k : ℝ))).length →
      (ohem_select_row ((List.range 100).map (fun (k : ℕ) => (k : ℝ)))
        ([true, true] ++ List.replicate 98 false)).getD j false = true →
      ([true, true] ++ List.replicate 98 false).getD j false = false →
      (ohem_select_row ((List.range 100).map (fun (k : ℕ) => (k : ℝ)))
        ([true, true] ++ List.replicate 98 false)).getD k false = false →
      ((List.range 100).map (fun (k : ℕ) => (k : ℝ))).getD k 0 ≤
        ((List.range 100).map (fun (k : ℕ) => (k : ℝ))).getD j 0)) :=
  ⟨by simp, ohem_selects_top_negatives ((List.range 100).map (fun (k : ℕ) => (k : ℝ)))
    ([true, true] ++ List.replicate 98 false) (by simp)⟩

theorem getD_zero_of_all_zero (l : List ℝ) (h : ∀ x ∈ l, x = 0) (i : ℕ) :
    l.getD i 0 = 0 := by
  by_cases hi : i < l.length
  · rw [List.getD_eq_getElem _ _ hi]
    exact h _ (List.getElem_mem hi)
  · exact List.getD_eq_default _ _ (by omega)

theorem argmax_real_of_all_zero (l : List ℝ) (h : ∀ x ∈ l, x = 0) :
    argmax_real l = 0 := by
  match l with
  | [] => rfl
  | [x] => rfl
  | x :: y :: ys =>
    simp only [argmax_real]
    rw [getD_zero_of_all_zero (y :: ys)
      (fun z hz => h z (List.mem_cons_of_mem x hz)) _]
    rw [h x (List.mem_cons_self x (y :: ys))]
    rw [if_neg (lt_irrefl 0)]

theorem box_iou_pair_fake (q : Box4) :
    box_iou_pair (Box4.mk (-1) (-1) (-1) (-1)) q = 0 := by
  have hiw : max (0 : ℝ) (min (Box4.mk (-1) (-1) (-1) (-1)).c q.c -
      max (Box4.mk (-1) (-1) (-1) (-1)).a q.a) = 0 := by
    apply max_eq_left
    have h1 : min ((Box4.mk (-1) (-1) (-1) (-1)).c) q.c ≤ -1 := min_le_left _ _
    have h2 : (-1 : ℝ) ≤ max ((Box4.mk (-1) (-1) (-1) (-1)).a) q.a := le_max_left _ _
    linarith
  simp only [box_iou_pair, hiw, zero_mul, zero_div, ite_self]

theorem forced_fake (anchors_xyxy : List Box4) :
    [Box4.mk (-1) (-1) (-1) (-1)].map (fun g =>
      argmax_real (anchors_xyxy.map (fun a => box_iou_pair g a))) = [0] := by
  simp only [List.map_cons, List.map_nil]
  congr 1
  apply argmax_real_of_all_zero
  intro x hx
  obtain ⟨a, _, rfl⟩ := List.mem_map.mp hx
  exact box_iou_pair_fake a

theorem assign_anchor_fake (anchors_xyxy : List Box4) (fg_th bg_th : ℝ)
    (hfg : 0 < fg_th) (hbg : 0 < bg_th) (k : ℕ) :
    (assign_anchor [Box4.mk (-1) (-1) (-1) (-1)] [-1] anchors_xyxy fg_th bg_th [0] k).2 =
      if k = 0 then (-1 : ℤ) else 0 := by
  by_cases hk : k = 0
  · subst hk
    rfl
  · obtain ⟨s, rfl⟩ : ∃ s, k = s + 1 := ⟨k - 1, by omega⟩
    simp only [assign_anchor]
    rw [show ((List.range ([Box4.mk (-1) (-1) (-1) (-1)] : List Box4).length).filter
      (fun t => ([0] : List ℕ).getD t 0 == (s + 1))).getLast? = none from rfl]
    simp only [List.map_cons, List.map_nil, box_iou_pair_fake, argmax_real]
    rw [show ([(0 : ℝ)].getD 0 0) = 0 from rfl]
    rw [if_neg (not_le.mpr hfg), if_pos hbg]
    simp

theorem encode_txn_frame_empty_eval (anchors_xywh : List Box4) (fg_th bg_th : ℝ)
    (hfg : 0 < fg_th) (hbg : 0 < bg_th) :
    (encode_txn_frame anchors_xywh [] fg_th bg_th 0).2 =
      (List.range anchors_xywh.length).map (fun (k : ℕ) => if k = 0 then (-1 : ℤ) else 0) := by
  have hfr : (encode_txn_frame anchors_xywh [] fg_th bg_th 0).2 =
      (assign_priors [Box4.mk (-1) (-1) (-1) (-1)] [-1]
        (anchors_xywh.map change_box_order_xywh2xyxy) fg_th bg_th).2 := by
    simp only [encode_txn_frame, encode_boxes_from_anchors, List.isEmpty_nil,
      if_true, List.map_cons, List.map_nil]
    norm_num
  rw [hfr]
  simp only [assign_priors, List.isEmpty_cons, Bool.false_eq_true, if_false]
  rw [forced_fake (anchors_xywh.map change_box_order_xywh2xyxy), List.length_map]
  apply List.map_congr_left
  intro k _
  exact assign_anchor_fake (anchors_xywh.map change_box_order_xywh2xyxy)
    fg_th bg_th hfg hbg k

/-- C8 counterexample: encoding a frame with an empty ground-truth list does
NOT produce an all-background assignment — with two anchors and default
thresholds `fg = 0.5`, `bg = 0.4` (and default `label_offset = 0`) the class
targets are `[-1, 0]`, not `[0, 0]`: the placeholder box `(-1,-1,-1,-1,-1)`
force-assigns its best-matching anchor (index 0) its label `-1`. -/
theorem empty_frame_not_all_background :
    (encode_txn_frame [Box4.mk 8 8 16 16, Box4.mk 24 8 16 16] [] 0.5 0.4 0).2 ≠
      [0, 0] := by
  have h := encode_txn_frame_empty_eval [Box4.mk 8 8 16 16, Box4.mk 24 8 16 16]
    0.5 0.4 (by norm_num) (by norm_num)
  rw [h]
  decide

/-- C8 amended: the per-frame encoding of an empty ground-truth list never
raises (the embedding is total), and yields background (class target 0) for
every anchor EXCEPT the placeholder's best-matching anchor (index 0), which
receives `-1` (ignored, hence excluded from the loss) under the default
`label_offset = 0`: `encode_txn_boxes` substitutes the `(1, 5)` tensor of
`-1`s for the empty frame, and the spec-mandated best-match forcing of
`assign_priors` hands that placeholder's label `-1` to one anchor. -/
theorem empty_frame_placeholder_assignment (anchors_xywh : List Box4)
    (fg_th bg_th : ℝ) (hfg : 0 < fg_th) (hbg : 0 < bg_th) :
    (encode_txn_frame anchors_xywh [] fg_th bg_th 0).2 =
      (List.range anchors_xywh.length).map (fun (k : ℕ) => if k = 0 then (-1 : ℤ) else 0) :=
  encode_txn_frame_empty_eval anchors_xywh fg_th bg_th hfg hbg

/-- Witness for the amended C8: two concrete anchors, default thresholds —
the encoded class targets of the empty frame are `[-1, 0]`. -/
theorem empty_frame_placeholder_assignment_witness :
    (encode_txn_frame [Box4.mk 8 8 16 16, Box4.mk 24 8 16 16] [] 0.5 0.4 0).2 =
      [-1, 0] := by
  have h := empty_frame_placeholder_assignment [Box4.mk 8 8 16 16, Box4.mk 24 8 16 16]
    0.5 0.4 (by norm_num) (by norm_num)
  rw [h]
  rfl

theorem pick_max_score_mem (l : List ((Box4 × ℝ) × ℝ)) (b : (Box4 × ℝ) × ℝ)
    (rest : List ((Box4 × ℝ) × ℝ)) (h : pick_max_score l = some (b, rest)) :
    b ∈ l ∧ ∀ y ∈ rest, y ∈ l := by
  induction l generalizing b rest with
  | nil => simp [pick_max_score] at h
  | cons x xs ih =>
    simp only [pick_max_score] at h
    cases hxs : pick_max_score xs with
    | none =>
      rw [hxs] at h
      simp only [Option.some.injEq, Prod.mk.injEq] at h
      obtain ⟨rfl, rfl⟩ := h
      exact ⟨List.mem_cons_self x xs, by simp⟩
    | some br =>
      obtain ⟨b', rest'⟩ := br
      rw [hxs] at h
      by_cases hlt : x.2 < b'.2
      · simp only [if_pos hlt, Option.some.injEq, Prod.mk.injEq] at h
        obtain ⟨rfl, rfl⟩ := h
        obtain ⟨hb, hrest⟩ := ih b' rest' hxs
        refine ⟨List.mem_cons_of_mem x hb, ?_⟩
        intro y hy
        rcases List.mem_cons.mp hy with h1 | h2
        · exact h1 ▸ List.mem_cons_self x xs
        · exact List.mem_cons_of_mem x (hrest y h2)
      · simp only [if_neg hlt, Option.some.injEq, Prod.mk.injEq] at h
        obtain ⟨rfl, rfl⟩ := h
        exact ⟨List.mem_cons_self x xs, fun y hy => List.mem_cons_of_mem x hy⟩

theorem soft_nms_loop_subset (fuel : ℕ) (l : List ((Box4 × ℝ) × ℝ)) (nms_th : ℝ)
    (q : Box4 × ℝ) (h : q ∈ soft_nms_loop fuel l nms_th) : q ∈ l.map Prod.fst := by
  induction fuel generalizing l with
  | zero => simp [soft_nms_loop] at h
  | succ fuel ih =>
    simp only [soft_nms_loop] at h
    cases hpick : pick_max_score l with
    | none =>
      rw [hpick] at h
      simp at h
    | some br =>
      obtain ⟨b, rest⟩ := br
      rw [hpick] at h
      by_cases hfloor : b.2 < soft_nms_min_score
      · simp only [if_pos hfloor] at h
        simp at h
      · simp only [if_neg hfloor] at h
        obtain ⟨hb, hrest⟩ := pick_max_score_mem l b rest hpick
        rcases List.mem_cons.mp h with h1 | h2
        · exact h1 ▸ List.mem_map_of_mem Prod.fst hb
        · have hmem := ih (rest.map (soft_nms_decay b.1.1 nms_th)) h2
          rw [List.map_map] at hmem
          have heq : (Prod.fst ∘ soft_nms_decay b.1.1 nms_th) =
              (Prod.fst : (Box4 × ℝ) × ℝ → Box4 × ℝ) := funext (fun _ => rfl)
          rw [heq] at hmem
          obtain ⟨y, hy, rfl⟩ := List.mem_map.mp hmem
          exact List.mem_map_of_mem Prod.fst (hrest y hy)

theorem box_soft_nms_subset (pairs : List (Box4 × ℝ)) (nms_th : ℝ) :
    ∀ q ∈ box_soft_nms pairs nms_th, q ∈ pairs := by
  intro q hq
  have h := soft_nms_loop_subset pairs.length (pairs.map (fun p => (p, p.2))) nms_th q hq
  rw [List.map_map] at h
  simpa using h

theorem decode_class_eq_none_iff (box_preds : List Box4) (cls_preds : List (List ℝ))
    (st nt : ℝ) (i : ℕ) (hlen : box_preds.length = cls_preds.length) :
    decode_class box_preds cls_preds st nt i = none ↔
      ∀ r ∈ cls_preds, r.getD (i + 1) 0 ≤ st := by
  have hzl : (List.zip box_preds (cls_preds.map (fun rr => rr.getD (i + 1) 0))).length =
      cls_preds.length := by
    rw [List.length_zip, List.length_map, hlen, min_self]
  constructor
  · intro hn r hr
    have hpairs : ((List.zip box_preds (cls_preds.map (fun rr => rr.getD (i + 1) 0))).filter
        (fun p => decide (st < p.2))) = [] := by
      by_contra hne
      simp only [decode_class] at hn
      rw [if_neg (by simpa [List.isEmpty_iff] using hne)] at hn
      exact Option.some_ne_none _ hn
    obtain ⟨j, hjlt, rfl⟩ := List.mem_iff_getElem.mp hr
    have hjz : j < (List.zip box_preds
        (cls_preds.map (fun rr => rr.getD (i + 1) 0))).length := by
      rw [hzl]; exact hjlt
    have hnotlt := List.filter_eq_nil_iff.mp hpairs _ (List.getElem_mem hjz)
    rw [List.getElem_zip] at hnotlt
    simp only [List.getElem_map, decide_eq_true_eq] at hnotlt
    exact not_lt.mp hnotlt
  · intro hall
    have hpairs : ((List.zip box_preds (cls_preds.map (fun rr => rr.getD (i + 1) 0))).filter
        (fun p => decide (st < p.2))) = [] := by
      rw [List.filter_eq_nil_iff]
      intro q hq
      obtain ⟨qa, qb⟩ := q
      have hqcol := (List.of_mem_zip hq).2
      obtain ⟨r, hr, hqr⟩ := List.mem_map.mp hqcol
      simp only [decide_eq_true_eq, not_lt]
      rw [← hqr]
      exact hall r hr
    simp only [decode_class]
    rw [if_pos (by simpa [List.isEmpty_iff] using hpairs)]

/-- C9: `decode_boxes_from_anchors` never reads the background column.
First conjunct: the explicit empty signal `(None, None, None)` (`none`) is
returned exactly when no score in the foreground columns `1 .. C-1` exceeds
`score_thresh`.  Second conjunct: every returned detection `(box, label,
score)` has a label `i` with `i + 1 < C` (so it names the foreground column
`i + 1`, never column 0), a score strictly above `score_thresh`, and its
score is an entry of that foreground column — detections only arise from the
per-class scan of columns `1 .. C-1` followed by per-class NMS.  An empty
`some` result is distinguishable from `none`, so a "class 0" detection can
never be confused with the empty signal. -/
theorem decode_no_background_detections (anchors loc_preds : List Box4)
    (cls_preds : List (List ℝ)) (st nt : ℝ)
    (ha : anchors.length = cls_preds.length)
    (hl : loc_preds.length = cls_preds.length) :
    (decode_boxes_from_anchors anchors loc_preds cls_preds st nt = none ↔
      ∀ r ∈ cls_preds, ∀ c : ℕ, 1 ≤ c → c < (cls_preds.getD 0 []).length →
        r.getD c 0 ≤ st) ∧
    (∀ out, decode_boxes_from_anchors anchors loc_preds cls_preds st nt = some out →
      ∀ p ∈ out, p.2.1 + 1 < (cls_preds.getD 0 []).length ∧ st < p.2.2 ∧
        p.2.2 ∈ cls_preds.map (fun r => r.getD (p.2.1 + 1) 0)) := by
  have hbp : (List.zipWith decode_corner anchors loc_preds).length = cls_preds.length := by
    rw [List.length_zipWith, ha, hl, min_self]
  constructor
  · constructor
    · intro hnone r hr c hc1 hc2
      have hgroups : (List.range ((cls_preds.getD 0 []).length - 1)).filterMap
          (fun i => decode_class (List.zipWith decode_corner anchors loc_preds)
            cls_preds st nt i) = [] := by
        by_contra hne
        simp only [decode_boxes_from_anchors] at hnone
        rw [if_neg (by simpa [List.isEmpty_iff] using hne)] at hnone
        exact Option.some_ne_none _ hnone
      have hcl : decode_class (List.zipWith decode_corner anchors loc_preds)
          cls_preds st nt (c - 1) = none :=
        List.filterMap_eq_nil_iff.mp hgroups (c - 1) (List.mem_range.mpr (by omega))
      have hle := (decode_class_eq_none_iff _ _ st nt (c - 1) hbp).mp hcl r hr
      rwa [show c - 1 + 1 = c from by omega] at hle
    · intro hall
      have hgroups : (List.range ((cls_preds.getD 0 []).length - 1)).filterMap
          (fun i => decode_class (List.zipWith decode_corner anchors loc_preds)
            cls_preds st nt i) = [] := by
        rw [List.filterMap_eq_nil_iff]
        intro i hi
        apply (decode_class_eq_none_iff _ _ st nt i hbp).mpr
        intro r hr
        exact hall r hr (i + 1) (by omega)
          (by have := List.mem_range.mp hi; omega)
      simp only [decode_boxes_from_anchors]
      rw [if_pos (by simpa [List.isEmpty_iff] using hgroups)]
  · intro out hout p hp
    simp only [decode_boxes_from_anchors] at hout
    by_cases hg : ((List.range ((cls_preds.getD 0 []).length - 1)).filterMap
        (fun i => decode_class (List.zipWith decode_corner anchors loc_preds)
          cls_preds st nt i)).isEmpty
    · rw [if_pos hg] at hout
      simp at hout
    · rw [if_neg hg] at hout
      have hflat := Option.some.inj hout
      subst hflat
      obtain ⟨g, hgmem, hpg⟩ := List.mem_flatten.mp hp
      obtain ⟨i, hir, hidec⟩ := List.mem_filterMap.mp hgmem
      simp only [decode_class] at hidec
      by_cases hpe : ((List.zip (List.zipWith decode_corner anchors loc_preds)
          (cls_preds.map (fun r => r.getD (i + 1) 0))).filter
          (fun q => decide (st < q.2))).isEmpty
      · rw [if_pos hpe] at hidec
        simp at hidec
      · rw [if_neg hpe] at hidec
        have hmap := Option.some.inj hidec
        rw [← hmap] at hpg
        obtain ⟨q, hq, rfl⟩ := List.mem_map.mp hpg
        have hqp := box_soft_nms_subset _ nt q hq
        have hqz := List.mem_filter.mp hqp
        obtain ⟨qa, qb⟩ := q
        have hqcol := (List.of_mem_zip hqz.1).2
        refine ⟨?_, ?_, ?_⟩
        · show i + 1 < (cls_preds.getD 0 []).length
          have := List.mem_range.mp hir
          omega
        · simpa using hqz.2
        · simpa using hqcol

/-- Witness for C9: one anchor, two classes, the single foreground score 0.1
not exceeding `score_thresh = 0.6` — the decoder returns the explicit empty
signal `none`. -/
theorem decode_no_background_detections_witness :
    decode_boxes_from_anchors [Box4.mk 1 1 2 2] [Box4.mk 0 0 0 0]
      [[0.9, 0.1]] 0.6 0.45 = none := by
  apply (decode_no_background_detections [Box4.mk 1 1 2 2] [Box4.mk 0 0 0 0]
    [[0.9, 0.1]] 0.6 0.45 rfl rfl).1.mpr
  intro r hr c hc1 hc2
  simp only [List.mem_cons, List.not_mem_nil, or_false] at hr
  subst hr
  have hc : c = 1 := by
    rw [show (([[(0.9 : ℝ), 0.1]].getD 0 []).length) = 2 from rfl] at hc2
    omega
  subst hc
  show ([(0.9 : ℝ), 0.1].getD 1 0) ≤ 0.6
  norm_num [List.getD]
